import Mathlib

/-!
# Verification of the fluffy-parakeet reference-resolution engine

Shallow embedding of the datapack reference-resolution core:

* `src/crates/datapack/src/identifier.rs` — the namespaced `Identifier` key
  type and its `PartialEq` / `Ord` / `Hash` implementations;
* `src/crates/util/src/add_only_map.rs` — the concurrent insert-only map
  primitives (`AddOnlyMultiMap::get_or_try_insert`,
  `AddOnlyMap::get_or_try_insert`);
* `src/crates/datapack/src/data/holder.rs` — `RegistryMap::get_or_try_insert`
  and `Holder::resolve`;
* `src/crates/datapack/src/data/tag.rs` — `HolderSet::resolve_tag`,
  `HolderSet::flatten`, `load_tag_recursive`, and the `TagEntry` / `TagOrId`
  deserializers;
* `src/crates/datapack/src/lib.rs` — `DataPackError` and
  `DataPackError::is_not_found`.

Modelling conventions:

* Identifiers are modelled by their rendered `String` value (the Rust
  `Identifier` is a transparent wrapper around `str`).
* The hash-map keys of the registries and tag caches are compared with plain
  string equality.  This coincides with the behaviour of the Rust
  `DashMap`/`AHashMap` keyed by `IdentifierBuf` whenever identifiers are used
  in a single rendered form: the hash fed to the table is the rendered string
  with a leading `"minecraft:"` stripped, and the probe equality then agrees
  with string equality.  The anomalies of the (buggy, see
  `identifier_eq_ord_hash_bug`) `PartialEq for Identifier` are modelled
  explicitly where they are observable in output — in the per-call
  deduplication set of `load_tag_recursive` (`probeEq`, see `tag_dedup_bug`).
* Fallible Rust functions returning `Result` are modelled with `Except`;
  the recursive tag loader additionally carries a fuel argument and returns
  `Option`, with `none` meaning "fuel exhausted" (the Rust recursion always
  terminates because `currently_loading_tags` grows along every chain, so
  every theorem below is stated for arbitrary fuel).
* Concurrency (claim C2) is modelled by interleaving atomic steps: each
  `DashMap` operation (`get`, and the whole `entry`-based
  `get_or_try_insert`, which runs the compute closure under the shard write
  lock) is one atomic step, and a schedule is an arbitrary list of thread
  indices.
-/

namespace FluffyParakeet

/-! ## Identifier (identifier.rs) -/

/-- Rendered identifier string, e.g. `"minecraft:stone"` or `"b:x"` or
`"stone"` (implicitly in the `minecraft` namespace). -/
abbrev Id := String

/-- Char-list prefix test (`str::starts_with` on the underlying chars;
identifiers are ASCII, so char-wise and byte-wise agree). -/
def startsWithChars : List Char → List Char → Bool
  | [], _ => true
  | _ :: _, [] => false
  | p :: ps, c :: cs => p == c && startsWithChars ps cs

/-- Whether the rendered value carries an explicit leading `"minecraft:"`,
i.e. whether `self.value.strip_prefix("minecraft:")` succeeds. -/
def hasMc (s : String) : Bool := startsWithChars "minecraft:".data s.data

/-- The rendered value with a leading `"minecraft:"` stripped if present
(`"minecraft:"` has length 10). -/
def stripMc (s : String) : String := if hasMc s then ⟨s.data.drop 10⟩ else s

/-- `impl PartialEq for Identifier` (identifier.rs lines 181-190), verbatim
including the slip: the fallback for `other` is `&self.value`, not
`&other.value`:
`let this = self.value.strip_prefix("minecraft:").unwrap_or(&self.value);`
`let other = other.value.strip_prefix("minecraft:").unwrap_or(&self.value);`
`this == other`. -/
def eqId (a b : String) : Bool :=
  stripMc a == (if hasMc b then stripMc b else a)

/-- `impl Hash for Identifier`: the value hashed is the rendered string with
the `"minecraft:"` stripped; we model the hash as that string itself. -/
def hashId (s : String) : String := stripMc s

/-- Lexicographic comparison of character lists; `str::cmp` in Rust is
byte-wise lexicographic, which agrees with this char-wise comparison on the
ASCII strings that valid identifiers are made of. -/
def cmpCharList : List Char → List Char → Ordering
  | [], [] => .eq
  | [], _ :: _ => .lt
  | _ :: _, [] => .gt
  | a :: as, b :: bs =>
    if a.toNat < b.toNat then .lt
    else if b.toNat < a.toNat then .gt
    else cmpCharList as bs

/-- `str::cmp`. -/
def strCmp (a b : String) : Ordering := cmpCharList a.data b.data

/-- `impl Ord for Identifier` (identifier.rs lines 198-210): a match on the
two `strip_prefix("minecraft:")` results; note the `(Some, None)` and
`(None, Some)` arms compare against the literal `"minecraft:"`. -/
def cmpId (a b : String) : Ordering :=
  match hasMc a, hasMc b with
  | true, true => strCmp (stripMc a) (stripMc b)
  | true, false => strCmp "minecraft:" b
  | false, true => strCmp a "minecraft:"
  | false, false => strCmp a b

/-- Membership probe performed by the hash table when inserting a new
identifier into the `added_values : AHashSet` of `load_tag_recursive`: the
stored element is a candidate only if its hash matches (`hashId`), and the
probe equality is `new == stored` with the new element on the left
(hashbrown probes with the inserted key as `self`). -/
def probeEq (a b : String) : Bool := hashId a == hashId b && eqId a b

/-! ### Identifier validation (identifier.rs `validate_namespace_and_path`) -/

/-- `is_valid_namespace_char`: `_ | - | a..=z | 0..=9 | .` -/
def isValidNamespaceChar (c : Char) : Bool :=
  c = '_' || c = '-' || ('a' ≤ c && c ≤ 'z') || ('0' ≤ c && c ≤ '9') || c = '.'

/-- `is_valid_path_char`: namespace chars plus `/`. -/
def isValidPathChar (c : Char) : Bool :=
  isValidNamespaceChar c || c = '/'

/-- `str::split_once(':')`: split at the first colon, if any. -/
def splitOnceColon : List Char → Option (List Char × List Char)
  | [] => none
  | c :: cs =>
    if c = ':' then some ([], cs)
    else
      match splitOnceColon cs with
      | some (a, b) => some (c :: a, b)
      | none => none

/-- `validate_namespace`: non-empty and all chars valid. -/
def validNamespaceChars (cs : List Char) : Bool :=
  !cs.isEmpty && cs.all isValidNamespaceChar

/-- `validate_path`: non-empty and all chars valid. -/
def validPathChars (cs : List Char) : Bool :=
  !cs.isEmpty && cs.all isValidPathChar

/-- `validate_namespace_and_path` / `IdentifierBuf::new` succeeding. -/
def validIdString (s : String) : Bool :=
  match splitOnceColon s.data with
  | some (ns, p) => validNamespaceChars ns && validPathChars p
  | none => validPathChars s.data

/-! ## Errors (lib.rs) -/

/-- `DataPackError` from lib.rs (the `RecursiveTag` variant is the one
constructed by `load_tag_recursive` in tag.rs).  The `Io` variant carries
whether `err.kind() == io::ErrorKind::NotFound`; the `Zip` variant carries
whether the error is `ZipError::FileNotFound`. -/
inductive DataPackError where
  | ioError (notFound : Bool)
  | jsonError
  | nonUtf8Path
  | zipError (fileNotFound : Bool)
  | recursiveTag
  deriving DecidableEq

/-- `DataPackError::is_not_found` (lib.rs lines 31-39): true exactly for an
`Io` error of kind `NotFound` and for `ZipError::FileNotFound`; every other
variant falls into the `_ => false` arm. -/
def DataPackError.is_not_found : DataPackError → Bool
  | .ioError nf => nf
  | .zipError nf => nf
  | _ => false

instance {ε α : Type} [DecidableEq ε] [DecidableEq α] :
    DecidableEq (Except ε α) := fun a b =>
  match a, b with
  | .ok x, .ok y =>
    match decEq x y with
    | isTrue h => isTrue (by rw [h])
    | isFalse h => isFalse (by intro hc; cases hc; exact h rfl)
  | .error x, .error y =>
    match decEq x y with
    | isTrue h => isTrue (by rw [h])
    | isFalse h => isFalse (by intro hc; cases hc; exact h rfl)
  | .ok _, .error _ => isFalse (by intro hc; cases hc)
  | .error _, .ok _ => isFalse (by intro hc; cases hc)

/-! ## Association-list maps

`DashMap` / `AHashMap` with lawfully-compared keys behave as finite maps;
we model them as association lists: `mapGet` finds the first binding,
`mapInsert` (`HashMap::insert`) replaces the value of an existing binding or
appends a new one. -/

/-- `map.get(key)`. -/
def mapGet {κ α : Type} [DecidableEq κ] : List (κ × α) → κ → Option α
  | [], _ => none
  | (k', v) :: rest, k => if k = k' then some v else mapGet rest k

/-- `map.insert(key, value)`: overwrite the existing binding or append. -/
def mapInsert {κ α : Type} [DecidableEq κ] : List (κ × α) → κ → α → List (κ × α)
  | [], k, v => [(k, v)]
  | (k', v') :: rest, k, v =>
    if k = k' then (k', v) :: rest else (k', v') :: mapInsert rest k v

/-! ## Insert-only map primitives (add_only_map.rs, holder.rs)

`AddOnlyMultiMap::get_or_try_insert` (add_only_map.rs lines 34-56) and
`AddOnlyMap::get_or_try_insert` (lines 130-141; it delegates to the
multi-map with a one-element vector and reads back its only element), and
`RegistryMap::get_or_try_insert` (holder.rs lines 28-48) all share the same
structure: an occupied entry is returned without invoking the compute
closure; a vacant entry invokes it, propagating an error before anything is
installed (`new_value()?`), and installs the successful value. -/

/-- `AddOnlyMultiMap::get_or_try_insert`. -/
def getOrTryInsertMulti {κ α ε : Type} [DecidableEq κ]
    (m : List (κ × List α)) (key : κ) (compute : Unit → Except ε (List α)) :
    List (κ × List α) × Except ε (List α) :=
  match mapGet m key with
  | some vs => (m, .ok vs)
  | none =>
    match compute () with
    | .error e => (m, .error e)
    | .ok vs => (m ++ [(key, vs)], .ok vs)

/-- `AddOnlyMap::get_or_try_insert` and `RegistryMap::get_or_try_insert`
(single-value variants; the `AddOnlyMap` delegation through a singleton
vector and `get_unchecked(0)` collapses to this). -/
def getOrTryInsertSingle {κ α ε : Type} [DecidableEq κ]
    (m : List (κ × α)) (key : κ) (compute : Unit → Except ε α) :
    List (κ × α) × Except ε α :=
  match mapGet m key with
  | some v => (m, .ok v)
  | none =>
    match compute () with
    | .error e => (m, .error e)
    | .ok v => (m ++ [(key, v)], .ok v)

/-! ## Tag data model (tag.rs) -/

/-- `TagOrId`: a literal identifier or (`#`-prefixed in JSON) a tag
reference. -/
inductive TagOrId where
  | id (v : Id)
  | tag (t : Id)
  deriving DecidableEq

/-- `TagEntry { value: TagOrId, required: bool }`. -/
structure TagEntry where
  value : TagOrId
  required : Bool
  deriving DecidableEq

/-- `TagFile { values: Vec<TagEntry>, replace: bool }`. -/
structure TagFile where
  values : List TagEntry
  replace : Bool
  deriving DecidableEq

/-- The per-tag-type persistent cache
`AddOnlyMultiMap<IdentifierBuf, IdentifierBuf>` and the per-call
`tags_to_add : AHashMap<IdentifierBuf, Vec<IdentifierBuf>>` accumulator. -/
abbrev TagMap := List (Id × List Id)

/-- The `add_value` closure of `load_tag_recursive`: push the identifier to
the output only if inserting it into the `added_values : AHashSet` actually
added it (membership probed with `probeEq`).  The accumulator is the pair
(`added_values`, `values`). -/
def addValue (acc : List Id × List Id) (v : Id) : List Id × List Id :=
  if acc.1.any (fun x => probeEq v x) then acc else (acc.1 ++ [v], acc.2 ++ [v])

/-- `for value in loaded_values { add_value(value.clone()) }`. -/
def addValues (acc : List Id × List Id) (vs : List Id) : List Id × List Id :=
  vs.foldl addValue acc

/-! ## The recursive tag loader (tag.rs `load_tag_recursive`, lines 322-387)

The `for entry in tag_file.values` loop is `processEntries`; the recursive
call is abstracted as the `recur` parameter (instantiated with
`loadTagRecursive` at one unit of fuel less).  The mutable
`currently_loading_tags : AHashSet` is threaded functionally: the Rust code
inserts `tag` before the recursive call and removes it right after, so the
callee runs with `tag :: cl` and every later step of the caller runs with
the unchanged `cl`.  `tags_to_add` (`pending`) is threaded in and out, as in
the Rust `&mut` parameter.  The `registry` parameter is the persistent tag
cache `T::get_registry_tags(&datapack.registry_tags)`, read-only during one
resolution. -/

/-- The entry loop of `load_tag_recursive`.  Returns `none` when a nested
load ran out of fuel, otherwise the final `tags_to_add` together with
either the flattened `values` or the propagated error. -/
def processEntries (registry : TagMap)
    (recur : Id → List Id → TagMap → Option (TagMap × Except DataPackError (List Id))) :
    List TagEntry → List Id → TagMap → List Id × List Id →
    Option (TagMap × Except DataPackError (List Id))
  | [], _, pending, acc => some (pending, .ok acc.2)
  | entry :: rest, cl, pending, acc =>
    match entry.value with
    | .id v => processEntries registry recur rest cl pending (addValue acc v)
    | .tag t =>
      match mapGet registry t with
      | some loaded =>
        -- fast path: tag has already been loaded in the datapack
        processEntries registry recur rest cl pending (addValues acc loaded)
      | none =>
        match mapGet pending t with
        | some loaded =>
          -- second fast path: tag has already been loaded in this recursive load
          processEntries registry recur rest cl pending (addValues acc loaded)
        | none =>
          if cl.contains t then some (pending, .error .recursiveTag)
          else
            match recur t (t :: cl) pending with
            | none => none
            | some (pending', .error err) =>
              if entry.required || !err.is_not_found then some (pending', .error err)
              else processEntries registry recur rest cl pending' acc
            | some (pending', .ok loaded) =>
              processEntries registry recur rest cl pending' (addValues acc loaded)

/-- `load_tag_recursive::<T>(datapack, id, currently_loading_tags,
tags_to_add)`.  `load` is `T::load_tag(datapack, id)` (a JSON read of
`data/{ns}/tags/{folder}/{path}.json`). -/
def loadTagRecursive (load : Id → Except DataPackError TagFile) (registry : TagMap) :
    Nat → Id → List Id → TagMap → Option (TagMap × Except DataPackError (List Id))
  | 0, _, _, _ => none
  | fuel + 1, id, cl, pending =>
    match load id with
    | .error e => some (pending, .error e)
    | .ok file =>
      match processEntries registry (loadTagRecursive load registry fuel)
          file.values cl pending ([], []) with
      | none => none
      | some (pending', .error e) => some (pending', .error e)
      | some (pending', .ok values) =>
        some (mapInsert pending' id values, .ok values)

/-- The commit loop of `HolderSet::resolve_tag`:
`for (tag_id, tag_values) in tags_to_add {
  registry_tags.get_or_try_insert(tag_id, || Ok(tag_values)).unwrap() }` —
each accumulated entry is installed unless the cache already holds the key. -/
def commitPending (registry : TagMap) (pending : TagMap) : TagMap :=
  pending.foldl
    (fun reg e =>
      match mapGet reg e.1 with
      | some _ => reg
      | none => reg ++ [(e.1, e.2)])
    registry

/-- `HolderSet::<T>::resolve_tag(datapack, id)` (tag.rs lines 81-104).
Returns the updated persistent tag cache together with the result; the
`.unwrap()` on the final `registry_tags.get(id)` is modelled with `getD []`
(`resolve_tag_commits_pending` proves the entry is present on success). -/
def resolveTag (load : Id → Except DataPackError TagFile) (registry : TagMap)
    (fuel : Nat) (id : Id) : Option (TagMap × Except DataPackError (List Id)) :=
  match mapGet registry id with
  | some loaded => some (registry, .ok loaded)  -- fast path: tag is already loaded
  | none =>
    match loadTagRecursive load registry fuel id [] [] with
    | none => none
    | some (pending, result) =>
      -- despite the potential error, there may be some successfully loaded tags to add
      let registry' := commitPending registry pending
      match result with
      | .error e => some (registry', .error e)
      | .ok _ => some (registry', .ok ((mapGet registry' id).getD []))

/-- `HolderSet::<T>::flatten(datapack)` (tag.rs lines 106-128): walk the
set's own `values`, adding literal identifiers and the members of each
referenced tag through the same `added_values` deduplication; a failing
`resolve_tag` propagates (`?`).  The persistent cache may grow across the
walk, so it is threaded through. -/
def flattenValues (load : Id → Except DataPackError TagFile) (fuel : Nat) :
    List TagOrId → TagMap → List Id × List Id →
    Option (TagMap × Except DataPackError (List Id))
  | [], registry, acc => some (registry, .ok acc.2)
  | .id v :: rest, registry, acc =>
    flattenValues load fuel rest registry (addValue acc v)
  | .tag t :: rest, registry, acc =>
    match resolveTag load registry fuel t with
    | none => none
    | some (registry', .error e) => some (registry', .error e)
    | some (registry', .ok loaded) =>
      flattenValues load fuel rest registry' (addValues acc loaded)

/-! ## JSON deserialization of tag entries (tag.rs lines 169-184, 273-304)

A small JSON value type; `serde` deserialization failures are modelled as
`none`.  `impl Deserialize for TagOrId` reads a string and treats a leading
`'#'` as a tag reference; `impl Deserialize for TagEntry` is an untagged
try of the bare `TagOrId` (strings only) and then of the object surrogate
`TagEntrySurrogate { value: TagOrId, #[serde(default)] required: bool }`
whose `required` defaults to `true`.  Unknown object fields are ignored, as
serde does by default. -/

inductive Json where
  | null
  | bool (b : Bool)
  | num (n : Int)
  | str (s : String)
  | arr (xs : List Json)
  | obj (fields : List (String × Json))

/-- First binding of a field name in a JSON object. -/
def jField : List (String × Json) → String → Option Json
  | [], _ => none
  | (k, v) :: rest, name => if k = name then some v else jField rest name

/-- `impl Deserialize for TagOrId`: a string, `'#'`-stripped into a tag
reference, validated by `IdentifierBuf::new`. -/
def deserTagOrId (j : Json) : Option TagOrId :=
  match j with
  | .str s =>
    match s.data with
    | '#' :: rest =>
      if validIdString (String.mk rest) then some (.tag (String.mk rest)) else none
    | _ => if validIdString s then some (.id s) else none
  | _ => none

/-- `impl Deserialize for TagEntry`: untagged `Value(TagOrId) |
Object(TagEntrySurrogate)`; note the surrogate's field is named `value`. -/
def deserTagEntry (j : Json) : Option TagEntry :=
  match deserTagOrId j with
  | some v => some ⟨v, true⟩
  | none =>
    match j with
    | .obj fields =>
      match jField fields "value" with
      | none => none
      | some jv =>
        match deserTagOrId jv with
        | none => none
        | some v =>
          match jField fields "required" with
          | none => some ⟨v, true⟩
          | some (.bool b) => some ⟨v, b⟩
          | some _ => none
    | _ => none

/-! ## Holder resolution under concurrency (holder.rs lines 28-48, 129-142)

`Holder::Reference(id).resolve(datapack)` performs two atomic `DashMap`
operations on the per-type `RegistryMap`: the fast-path `get`, and — on a
miss — `get_or_try_insert`, whose compute closure `T::load(datapack, id)`
runs under the shard write lock (the `entry` API), so the whole
get-or-insert is one atomic step.  We model `N` threads that all resolve
the same `Reference(id)` with a deterministic successful loader
`fun _ => Ok v`: each thread is a little program `start → (missed →)? done`
and a schedule is an arbitrary list of thread indices; every interleaving
of the atomic steps is such a schedule. -/

/-- Program counter of one thread executing `Holder::resolve` on the shared
`Reference(id)`. -/
inductive ThreadPC (V : Type) where
  | start
  | missed
  | done (v : V)
  deriving DecidableEq

/-- Whether a thread has finished its `resolve` call. -/
def ThreadPC.isDone {V : Type} : ThreadPC V → Bool
  | .done _ => true
  | _ => false

/-- Shared state: the registry slot for `id` (`Box::leak`ed value pointer),
the number of times `T::load` has been invoked, and every thread's pc. -/
structure ResolveState (V : Type) where
  slot : Option V
  loads : Nat
  threads : List (ThreadPC V)
  deriving DecidableEq

/-- One atomic step of one thread.  `start`: the fast-path
`loaded_values.get(id)` — a hit completes with the stored value, a miss
moves to `missed`.  `missed`: `get_or_try_insert(id.clone(), || T::load(..))`
— an occupied entry completes with the stored value, a vacant entry invokes
the loader (here `Ok v`), installs `v` and completes with it.  A finished
thread does nothing. -/
def stepThread {V : Type} (v : V) :
    Option V × Nat × ThreadPC V → Option V × Nat × ThreadPC V
  | (slot, loads, .start) =>
    match slot with
    | some w => (slot, loads, .done w)
    | none => (none, loads, .missed)
  | (slot, loads, .missed) =>
    match slot with
    | some w => (slot, loads, .done w)
    | none => (some v, loads + 1, .done v)
  | (slot, loads, .done w) => (slot, loads, .done w)

/-- Run the step of the scheduled thread (out-of-range indices are no-ops). -/
def schedStep {V : Type} (v : V) (st : ResolveState V) (i : Nat) : ResolveState V :=
  match st.threads[i]? with
  | none => st
  | some pc =>
    match stepThread v (st.slot, st.loads, pc) with
    | (slot', loads', pc') => ⟨slot', loads', st.threads.set i pc'⟩

/-- Run a whole schedule. -/
def runSched {V : Type} (v : V) (st : ResolveState V) (sched : List Nat) :
    ResolveState V :=
  sched.foldl (schedStep v) st

/-- Initial state: empty slot, no loads, `n` threads about to resolve. -/
def initResolveState (V : Type) (n : Nat) : ResolveState V :=
  ⟨none, 0, List.replicate n .start⟩

/-- Invariant of the shared state: either nothing has been installed (no
load has run, nobody is finished), or exactly one load has run, the slot
holds its value forever, and every finished thread got exactly that value. -/
def ResolveInv {V : Type} (v : V) (st : ResolveState V) : Prop :=
  (st.slot = none ∧ st.loads = 0 ∧ ∀ pc ∈ st.threads, pc = .start ∨ pc = .missed)
  ∨ (st.slot = some v ∧ st.loads = 1 ∧
      ∀ pc ∈ st.threads, pc = .start ∨ pc = .missed ∨ pc = .done v)

/-! ## Concrete content-source fixtures used by the examples -/

/-- Content source with the self-referential tag
`loop = [tagref("loop")]`; every other path is missing. -/
def loadLoop : Id → Except DataPackError TagFile := fun id =>
  if id = "loop" then .ok ⟨[⟨.tag "loop", true⟩], false⟩
  else .error (.ioError true)

/-- Content source with `parent = [tagref("ok_child"), tagref("bad_child")]`
where `ok_child = [id("a:x")]` resolves and `bad_child` is missing
(required). -/
def loadParent : Id → Except DataPackError TagFile := fun id =>
  if id = "parent" then .ok ⟨[⟨.tag "ok_child", true⟩, ⟨.tag "bad_child", true⟩], false⟩
  else if id = "ok_child" then .ok ⟨[⟨.id "a:x", true⟩], false⟩
  else .error (.ioError true)

/-- Content source for the dedup-and-order example:
`a = [id("b:x"), tagref("b:c")]`, `b:c = [id("b:y"), id("b:x")]`. -/
def loadDedup : Id → Except DataPackError TagFile := fun id =>
  if id = "a" then .ok ⟨[⟨.id "b:x", true⟩, ⟨.tag "b:c", true⟩], false⟩
  else if id = "b:c" then .ok ⟨[⟨.id "b:y", true⟩, ⟨.id "b:x", true⟩], false⟩
  else .error (.ioError true)

/-- Content source whose tag `a` lists the same identifier in its two
rendered forms: `a = [id("stone"), id("minecraft:stone")]`. -/
def loadMixed : Id → Except DataPackError TagFile := fun id =>
  if id = "a" then .ok ⟨[⟨.id "stone", true⟩, ⟨.id "minecraft:stone", true⟩], false⟩
  else .error (.ioError true)

/-! ## Basic association-map lemmas -/

theorem mapGet_mapInsert_self {κ α : Type} [DecidableEq κ]
    (m : List (κ × α)) (k : κ) (v : α) :
    mapGet (mapInsert m k v) k = some v := by
  induction m with
  | nil => simp [mapInsert, mapGet]
  | cons e rest ih =>
    obtain ⟨k', v'⟩ := e
    by_cases h : k = k' <;> simp [mapInsert, mapGet, h, ih]

theorem mapGet_mapInsert_ne {κ α : Type} [DecidableEq κ]
    (m : List (κ × α)) (k k' : κ) (v : α) (h : k ≠ k') :
    mapGet (mapInsert m k' v) k = mapGet m k := by
  induction m with
  | nil => simp [mapInsert, mapGet, h]
  | cons e rest ih =>
    obtain ⟨k'', v''⟩ := e
    by_cases h' : k' = k''
    · subst h'
      simp [mapInsert, mapGet, h]
    · by_cases h'' : k = k'' <;> simp [mapInsert, mapGet, h', h'', ih]

theorem mapGet_append_left {κ α : Type} [DecidableEq κ]
    {m₁ : List (κ × α)} {k : κ} {v : α} (m₂ : List (κ × α))
    (h : mapGet m₁ k = some v) :
    mapGet (m₁ ++ m₂) k = some v := by
  induction m₁ with
  | nil => simp [mapGet] at h
  | cons e rest ih =>
    obtain ⟨k', v'⟩ := e
    by_cases h' : k = k' <;> simp_all [mapGet]

theorem mapGet_append_right {κ α : Type} [DecidableEq κ]
    {m₁ : List (κ × α)} {k : κ} (m₂ : List (κ × α))
    (h : mapGet m₁ k = none) :
    mapGet (m₁ ++ m₂) k = mapGet m₂ k := by
  induction m₁ with
  | nil => simp
  | cons e rest ih =>
    obtain ⟨k', v'⟩ := e
    by_cases h' : k = k' <;> simp_all [mapGet]

/-! ## Commit-loop lemmas (`resolve_tag`'s `for (tag_id, tag_values) in tags_to_add`) -/

theorem commitPending_cons (registry : TagMap) (k : Id) (v : List Id) (rest : TagMap) :
    commitPending registry ((k, v) :: rest) =
      commitPending
        (match mapGet registry k with
         | some _ => registry
         | none => registry ++ [(k, v)]) rest := rfl

/-- Entries already in the cache are never modified by the commit loop
(`get_or_try_insert` keeps existing values). -/
theorem commitPending_present {registry : TagMap} {k : Id} {v : List Id}
    (pending : TagMap) (h : mapGet registry k = some v) :
    mapGet (commitPending registry pending) k = some v := by
  induction pending generalizing registry with
  | nil => exact h
  | cons e rest ih =>
    obtain ⟨k', v'⟩ := e
    rw [commitPending_cons]
    match hp : mapGet registry k' with
    | some w => simpa [hp] using ih h
    | none =>
      simp only [hp]
      exact ih (mapGet_append_left _ h)

theorem mapGet_append_single_ne {κ α : Type} [DecidableEq κ]
    (m : List (κ × α)) {k k' : κ} (v' : α) (h : k ≠ k') :
    mapGet (m ++ [(k', v')]) k = mapGet m k := by
  match hm : mapGet m k with
  | some v => exact mapGet_append_left _ hm
  | none =>
    rw [mapGet_append_right _ hm]
    simp [mapGet, h]

/-- Keys absent from `tags_to_add` are untouched by the commit loop. -/
theorem commitPending_absent {pending : TagMap} {k : Id}
    (registry : TagMap) (h : mapGet pending k = none) :
    mapGet (commitPending registry pending) k = mapGet registry k := by
  induction pending generalizing registry with
  | nil => rfl
  | cons e rest ih =>
    obtain ⟨k', v'⟩ := e
    have hk : k ≠ k' := by
      intro hc
      simp [mapGet, hc] at h
    have h' : mapGet rest k = none := by
      simpa [mapGet, hk] using h
    rw [commitPending_cons]
    match hp : mapGet registry k' with
    | some w => simpa [hp] using ih registry h'
    | none =>
      simp only [hp]
      rw [ih _ h', mapGet_append_single_ne _ _ hk]

/-- Every accumulated entry whose key the cache does not already hold is
installed by the commit loop with its accumulated member list. -/
theorem commitPending_pending {registry pending : TagMap} {k : Id} {v : List Id}
    (hreg : mapGet registry k = none) (hpend : mapGet pending k = some v) :
    mapGet (commitPending registry pending) k = some v := by
  induction pending generalizing registry with
  | nil => simp [mapGet] at hpend
  | cons e rest ih =>
    obtain ⟨k', v'⟩ := e
    rw [commitPending_cons]
    by_cases hk : k = k'
    · subst hk
      have hv : v' = v := by simpa [mapGet] using hpend
      subst hv
      simp only [hreg]
      refine commitPending_present rest ?_
      rw [mapGet_append_right _ hreg]
      simp [mapGet]
    · have hpend' : mapGet rest k = some v := by simpa [mapGet, hk] using hpend
      match hp : mapGet registry k' with
      | some w => simpa [hp] using ih hreg hpend'
      | none =>
        simp only [hp]
        refine ih ?_ hpend'
        rw [mapGet_append_single_ne _ _ hk]
        exact hreg

/-! ## In-flight tags never enter the accumulator

A tag in `currently_loading_tags` is an ancestor still being processed; the
recursion guard (`!currently_loading_tags.insert(..)` failing) means no call
on it can start, so no `tags_to_add.insert` for it can happen until it
finishes.  These two lemmas make that precise for the entry loop and the
recursive loader. -/

theorem processEntries_preserves_absent {registry : TagMap}
    {recur : Id → List Id → TagMap → Option (TagMap × Except DataPackError (List Id))}
    {t : Id}
    (hrec : ∀ u cl' p r, recur u cl' p = some r → t ∈ cl' → u ≠ t →
      mapGet p t = none → mapGet r.1 t = none) :
    ∀ entries cl pending acc r,
      processEntries registry recur entries cl pending acc = some r →
      t ∈ cl → mapGet pending t = none → mapGet r.1 t = none := by
  intro entries
  induction entries with
  | nil =>
    intro cl pending acc r hpe hcl hpend
    simp only [processEntries] at hpe
    cases hpe
    exact hpend
  | cons entry rest ih =>
    intro cl pending acc r hpe hcl hpend
    match hentry : entry.value with
    | .id v =>
      simp only [processEntries, hentry] at hpe
      exact ih cl pending _ r hpe hcl hpend
    | .tag tg =>
      simp only [processEntries, hentry] at hpe
      match hr : mapGet registry tg with
      | some loaded =>
        simp only [hr] at hpe
        exact ih cl pending _ r hpe hcl hpend
      | none =>
        simp only [hr] at hpe
        match hp : mapGet pending tg with
        | some loaded =>
          simp only [hp] at hpe
          exact ih cl pending _ r hpe hcl hpend
        | none =>
          simp only [hp] at hpe
          by_cases hin : cl.contains tg
          · rw [if_pos hin] at hpe
            cases hpe
            exact hpend
          · rw [if_neg hin] at hpe
            have htg : tg ≠ t := by
              intro hc
              subst hc
              exact hin (List.elem_eq_true_of_mem hcl)
            match hc : recur tg (tg :: cl) pending with
            | none =>
              simp only [hc] at hpe
              exact Option.noConfusion hpe
            | some (pending', .error err) =>
              simp only [hc] at hpe
              have hpend' : mapGet pending' t = none :=
                hrec tg (tg :: cl) pending (pending', .error err) hc
                  (List.mem_cons_of_mem _ hcl) htg hpend
              by_cases hreq : (entry.required || !err.is_not_found) = true
              · rw [if_pos hreq] at hpe
                cases hpe
                exact hpend'
              · rw [if_neg hreq] at hpe
                exact ih cl pending' _ r hpe hcl hpend'
            | some (pending', .ok loaded) =>
              simp only [hc] at hpe
              have hpend' : mapGet pending' t = none :=
                hrec tg (tg :: cl) pending (pending', .ok loaded) hc
                  (List.mem_cons_of_mem _ hcl) htg hpend
              exact ih cl pending' _ r hpe hcl hpend'

theorem loadTagRecursive_preserves_absent
    {load : Id → Except DataPackError TagFile} {registry : TagMap} {t : Id} :
    ∀ fuel s cl pending r,
      loadTagRecursive load registry fuel s cl pending = some r →
      t ∈ cl → s ≠ t → mapGet pending t = none → mapGet r.1 t = none := by
  intro fuel
  induction fuel with
  | zero => intro s cl pending r h; cases h
  | succ fuel ih =>
    intro s cl pending r h hcl hst hpend
    match hl : load s with
    | .error e =>
      simp only [loadTagRecursive, hl] at h
      cases h
      exact hpend
    | .ok file =>
      simp only [loadTagRecursive, hl] at h
      have hrec : ∀ u cl' p r', loadTagRecursive load registry fuel u cl' p = some r' →
          t ∈ cl' → u ≠ t → mapGet p t = none → mapGet r'.1 t = none := by
        intro u cl' p r' h' hcl' hut hp
        exact ih u cl' p r' h' hcl' hut hp
      match hpe : processEntries registry (loadTagRecursive load registry fuel)
          file.values cl pending ([], []) with
      | none =>
        simp only [hpe] at h
        exact Option.noConfusion h
      | some (pending', .error e) =>
        simp only [hpe] at h
        cases h
        exact processEntries_preserves_absent hrec _ _ _ _ _ hpe hcl hpend
      | some (pending', .ok values) =>
        simp only [hpe] at h
        cases h
        have hp' : mapGet pending' t = none :=
          processEntries_preserves_absent hrec _ _ _ _ _ hpe hcl hpend
        rw [mapGet_mapInsert_ne _ _ _ _ (Ne.symm hst)]
        exact hp'

/-! ## A walk that must pass an in-flight tag cannot succeed

If some entry of the list references a tag `t` that is still being loaded
(`t ∈ currently_loading_tags`) and is in neither cache, then the walk either
fails before that entry or hits the `RecursiveTag` guard at it; it can never
return `Ok`.  This is the heart of the argument that a re-entrant load of
the top-level tag always fails. -/

theorem processEntries_blocked_no_ok {registry : TagMap}
    {recur : Id → List Id → TagMap → Option (TagMap × Except DataPackError (List Id))}
    {t : Id}
    (hrecAbs : ∀ u cl' p r, recur u cl' p = some r → t ∈ cl' → u ≠ t →
      mapGet p t = none → mapGet r.1 t = none)
    (hreg : mapGet registry t = none) :
    ∀ entries cl pending acc p' res,
      processEntries registry recur entries cl pending acc = some (p', res) →
      t ∈ cl → mapGet pending t = none →
      (∃ e, e ∈ entries ∧ e.value = .tag t) →
      ∃ err, res = .error err := by
  intro entries
  induction entries with
  | nil =>
    intro cl pending acc p' res hpe hcl hpend hwit
    obtain ⟨e, he, _⟩ := hwit
    exact absurd he (List.not_mem_nil e)
  | cons entry rest ih =>
    intro cl pending acc p' res hpe hcl hpend hwit
    by_cases hhead : entry.value = .tag t
    · simp only [processEntries, hhead, hreg, hpend,
        List.elem_eq_true_of_mem hcl, if_true] at hpe
      cases hpe
      exact ⟨.recursiveTag, rfl⟩
    · have hwit' : ∃ e, e ∈ rest ∧ e.value = .tag t := by
        obtain ⟨e, he, hev⟩ := hwit
        rcases List.mem_cons.mp he with rfl | hr
        · exact absurd hev hhead
        · exact ⟨e, hr, hev⟩
      match hentry : entry.value with
      | .id v =>
        simp only [processEntries, hentry] at hpe
        exact ih _ _ _ _ _ hpe hcl hpend hwit'
      | .tag tg =>
        simp only [processEntries, hentry] at hpe
        match hr : mapGet registry tg with
        | some loaded =>
          simp only [hr] at hpe
          exact ih _ _ _ _ _ hpe hcl hpend hwit'
        | none =>
          simp only [hr] at hpe
          match hp : mapGet pending tg with
          | some loaded =>
            simp only [hp] at hpe
            exact ih _ _ _ _ _ hpe hcl hpend hwit'
          | none =>
            simp only [hp] at hpe
            by_cases hin : cl.contains tg
            · rw [if_pos hin] at hpe
              cases hpe
              exact ⟨.recursiveTag, rfl⟩
            · rw [if_neg hin] at hpe
              have htg : tg ≠ t := by
                intro hceq
                rw [hentry, hceq] at hhead
                exact hhead rfl
              match hc : recur tg (tg :: cl) pending with
              | none =>
                simp only [hc] at hpe
                exact Option.noConfusion hpe
              | some (pending', .error err) =>
                simp only [hc] at hpe
                have hpend' : mapGet pending' t = none :=
                  hrecAbs tg (tg :: cl) pending (pending', .error err) hc
                    (List.mem_cons_of_mem _ hcl) htg hpend
                by_cases hreq : (entry.required || !err.is_not_found) = true
                · rw [if_pos hreq] at hpe
                  cases hpe
                  exact ⟨err, rfl⟩
                · rw [if_neg hreq] at hpe
                  exact ih _ _ _ _ _ hpe hcl hpend' hwit'
              | some (pending', .ok loaded) =>
                simp only [hc] at hpe
                have hpend' : mapGet pending' t = none :=
                  hrecAbs tg (tg :: cl) pending (pending', .ok loaded) hc
                    (List.mem_cons_of_mem _ hcl) htg hpend
                exact ih _ _ _ _ _ hpe hcl hpend' hwit'

theorem loadTagRecursive_blocked_no_ok
    {load : Id → Except DataPackError TagFile} {registry : TagMap} {t : Id}
    (hreg : mapGet registry t = none) :
    ∀ fuel s cl pending p' res,
      loadTagRecursive load registry fuel s cl pending = some (p', res) →
      t ∈ cl → mapGet pending t = none →
      (∀ file, load s = .ok file → ∃ e, e ∈ file.values ∧ e.value = .tag t) →
      ∃ err, res = .error err := by
  intro fuel s cl pending p' res h hcl hpend hwit
  match fuel with
  | 0 => cases h
  | fuel + 1 =>
    match hl : load s with
    | .error e =>
      simp only [loadTagRecursive, hl] at h
      cases h
      exact ⟨e, rfl⟩
    | .ok file =>
      simp only [loadTagRecursive, hl] at h
      have hrecAbs : ∀ u cl' p r, loadTagRecursive load registry fuel u cl' p = some r →
          t ∈ cl' → u ≠ t → mapGet p t = none → mapGet r.1 t = none :=
        fun u cl' p r h' hcl' hut hp =>
          loadTagRecursive_preserves_absent fuel u cl' p r h' hcl' hut hp
      match hpe : processEntries registry (loadTagRecursive load registry fuel)
          file.values cl pending ([], []) with
      | none =>
        simp only [hpe] at h
        exact Option.noConfusion h
      | some (pending', .error e) =>
        simp only [hpe] at h
        cases h
        exact ⟨e, rfl⟩
      | some (pending', .ok values) =>
        obtain ⟨err, hcontra⟩ :=
          processEntries_blocked_no_ok hrecAbs hreg _ _ _ _ _ _ hpe hcl hpend
            (hwit file hl)
        exact Except.noConfusion hcontra

/-! ## No re-entrant load of the top-level tag can commit it

During a (sub)call whose `currently_loading_tags` contains a tag `u` that is
(a) referenced by an entry of `idTop`'s own file, (b) in neither cache:
any nested re-entrant call on `idTop` must walk `idTop`'s file again, reach
that entry and fail on the `RecursiveTag` guard — so `idTop` is never
inserted into `tags_to_add` inside such a subtree. -/

theorem processEntries_no_reentrant_insert {registry : TagMap}
    {recur : Id → List Id → TagMap → Option (TagMap × Except DataPackError (List Id))}
    {idTop u : Id}
    (hrecAbs : ∀ w cl' p r, recur w cl' p = some r → u ∈ cl' → w ≠ u →
      mapGet p u = none → mapGet r.1 u = none)
    (hrecTop : ∀ w cl' p r, recur w cl' p = some r → u ∈ cl' → w ≠ u →
      mapGet p u = none → mapGet p idTop = none → mapGet r.1 idTop = none) :
    ∀ entries cl pending acc r,
      processEntries registry recur entries cl pending acc = some r →
      u ∈ cl → mapGet pending u = none → mapGet pending idTop = none →
      mapGet r.1 u = none ∧ mapGet r.1 idTop = none := by
  intro entries
  induction entries with
  | nil =>
    intro cl pending acc r hpe hcl hpu hpt
    simp only [processEntries] at hpe
    cases hpe
    exact ⟨hpu, hpt⟩
  | cons entry rest ih =>
    intro cl pending acc r hpe hcl hpu hpt
    match hentry : entry.value with
    | .id v =>
      simp only [processEntries, hentry] at hpe
      exact ih _ _ _ _ hpe hcl hpu hpt
    | .tag tg =>
      simp only [processEntries, hentry] at hpe
      match hr : mapGet registry tg with
      | some loaded =>
        simp only [hr] at hpe
        exact ih _ _ _ _ hpe hcl hpu hpt
      | none =>
        simp only [hr] at hpe
        match hp : mapGet pending tg with
        | some loaded =>
          simp only [hp] at hpe
          exact ih _ _ _ _ hpe hcl hpu hpt
        | none =>
          simp only [hp] at hpe
          by_cases hin : cl.contains tg
          · rw [if_pos hin] at hpe
            cases hpe
            exact ⟨hpu, hpt⟩
          · rw [if_neg hin] at hpe
            have htg : tg ≠ u := by
              intro hceq
              subst hceq
              exact hin (List.elem_eq_true_of_mem hcl)
            match hc : recur tg (tg :: cl) pending with
            | none =>
              simp only [hc] at hpe
              exact Option.noConfusion hpe
            | some (pending', .error err) =>
              simp only [hc] at hpe
              have hpu' : mapGet pending' u = none :=
                hrecAbs tg (tg :: cl) pending _ hc (List.mem_cons_of_mem _ hcl) htg hpu
              have hpt' : mapGet pending' idTop = none :=
                hrecTop tg (tg :: cl) pending _ hc (List.mem_cons_of_mem _ hcl) htg hpu hpt
              by_cases hreq : (entry.required || !err.is_not_found) = true
              · rw [if_pos hreq] at hpe
                cases hpe
                exact ⟨hpu', hpt'⟩
              · rw [if_neg hreq] at hpe
                exact ih _ _ _ _ hpe hcl hpu' hpt'
            | some (pending', .ok loaded) =>
              simp only [hc] at hpe
              have hpu' : mapGet pending' u = none :=
                hrecAbs tg (tg :: cl) pending _ hc (List.mem_cons_of_mem _ hcl) htg hpu
              have hpt' : mapGet pending' idTop = none :=
                hrecTop tg (tg :: cl) pending _ hc (List.mem_cons_of_mem _ hcl) htg hpu hpt
              exact ih _ _ _ _ hpe hcl hpu' hpt'

theorem loadTagRecursive_no_reentrant_insert
    {load : Id → Except DataPackError TagFile} {registry : TagMap} {idTop u : Id}
    (hregU : mapGet registry u = none)
    (hwit : ∀ file, load idTop = .ok file → ∃ e, e ∈ file.values ∧ e.value = .tag u) :
    ∀ fuel s cl pending r,
      loadTagRecursive load registry fuel s cl pending = some r →
      u ∈ cl → mapGet pending u = none → mapGet pending idTop = none →
      mapGet r.1 idTop = none := by
  intro fuel
  induction fuel with
  | zero => intro s cl pending r h; cases h
  | succ fuel ih =>
    intro s cl pending r h hcl hpu hpt
    match hl : load s with
    | .error e =>
      simp only [loadTagRecursive, hl] at h
      cases h
      exact hpt
    | .ok file =>
      simp only [loadTagRecursive, hl] at h
      have hrecAbs : ∀ w cl' p r', loadTagRecursive load registry fuel w cl' p = some r' →
          u ∈ cl' → w ≠ u → mapGet p u = none → mapGet r'.1 u = none :=
        fun w cl' p r' h' hcl' hwu hp =>
          loadTagRecursive_preserves_absent fuel w cl' p r' h' hcl' hwu hp
      have hrecTop : ∀ w cl' p r', loadTagRecursive load registry fuel w cl' p = some r' →
          u ∈ cl' → w ≠ u → mapGet p u = none → mapGet p idTop = none →
          mapGet r'.1 idTop = none :=
        fun w cl' p r' h' hcl' _ hpu' hpt' => ih w cl' p r' h' hcl' hpu' hpt'
      match hpe : processEntries registry (loadTagRecursive load registry fuel)
          file.values cl pending ([], []) with
      | none =>
        simp only [hpe] at h
        exact Option.noConfusion h
      | some (pending', .error e) =>
        simp only [hpe] at h
        cases h
        exact (processEntries_no_reentrant_insert hrecAbs hrecTop _ _ _ _ _ hpe hcl hpu hpt).2
      | some (pending', .ok values) =>
        simp only [hpe] at h
        by_cases hs : s = idTop
        · subst hs
          obtain ⟨err, hcontra⟩ :=
            loadTagRecursive_blocked_no_ok hregU (fuel + 1) s cl pending
              (mapInsert pending' s values) (.ok values)
              (by simp only [loadTagRecursive, hl, hpe]) hcl hpu hwit
          exact Except.noConfusion hcontra
        · cases h
          obtain ⟨_, hpt'⟩ :=
            processEntries_no_reentrant_insert hrecAbs hrecTop _ _ _ _ _ hpe hcl hpu hpt
          rw [mapGet_mapInsert_ne _ _ _ _ (fun hc => hs hc.symm)]
          exact hpt'

/-! ## The top-level call never records its own tag on failure -/

theorem processEntries_top_no_insert
    {load : Id → Except DataPackError TagFile} {registry : TagMap}
    {idTop : Id} {file : TagFile} (hfile : load idTop = .ok file) (fuel : Nat) :
    ∀ entries cl pending acc r,
      processEntries registry (loadTagRecursive load registry fuel)
        entries cl pending acc = some r →
      (∀ e, e ∈ entries → e ∈ file.values) →
      mapGet pending idTop = none →
      mapGet r.1 idTop = none := by
  intro entries
  induction entries with
  | nil =>
    intro cl pending acc r hpe hsub hpt
    simp only [processEntries] at hpe
    cases hpe
    exact hpt
  | cons entry rest ih =>
    intro cl pending acc r hpe hsub hpt
    have hsub' : ∀ e, e ∈ rest → e ∈ file.values :=
      fun e he => hsub e (List.mem_cons_of_mem _ he)
    match hentry : entry.value with
    | .id v =>
      simp only [processEntries, hentry] at hpe
      exact ih _ _ _ _ hpe hsub' hpt
    | .tag tg =>
      simp only [processEntries, hentry] at hpe
      match hr : mapGet registry tg with
      | some loaded =>
        simp only [hr] at hpe
        exact ih _ _ _ _ hpe hsub' hpt
      | none =>
        simp only [hr] at hpe
        match hp : mapGet pending tg with
        | some loaded =>
          simp only [hp] at hpe
          exact ih _ _ _ _ hpe hsub' hpt
        | none =>
          simp only [hp] at hpe
          by_cases hin : cl.contains tg
          · rw [if_pos hin] at hpe
            cases hpe
            exact hpt
          · rw [if_neg hin] at hpe
            have hwit : ∀ f, load idTop = .ok f →
                ∃ e, e ∈ f.values ∧ e.value = .tag tg := by
              intro f hf
              rw [hfile] at hf
              cases hf
              exact ⟨entry, hsub entry (List.mem_cons_self _ _), hentry⟩
            match hc : loadTagRecursive load registry fuel tg (tg :: cl) pending with
            | none =>
              simp only [hc] at hpe
              exact Option.noConfusion hpe
            | some (pending', .error err) =>
              simp only [hc] at hpe
              have hpt' : mapGet pending' idTop = none :=
                loadTagRecursive_no_reentrant_insert hr hwit fuel tg (tg :: cl)
                  pending _ hc (List.mem_cons_self _ _) hp hpt
              by_cases hreq : (entry.required || !err.is_not_found) = true
              · rw [if_pos hreq] at hpe
                cases hpe
                exact hpt'
              · rw [if_neg hreq] at hpe
                exact ih _ _ _ _ hpe hsub' hpt'
            | some (pending', .ok loaded) =>
              simp only [hc] at hpe
              have hpt' : mapGet pending' idTop = none :=
                loadTagRecursive_no_reentrant_insert hr hwit fuel tg (tg :: cl)
                  pending _ hc (List.mem_cons_self _ _) hp hpt
              exact ih _ _ _ _ hpe hsub' hpt'

/-- A call on `id` that returns an error leaves `id` unrecorded in
`tags_to_add` (whatever the configuration, as long as it was unrecorded
before): the `tags_to_add.insert(id.to_owned(), ..)` line runs only on the
success path, and re-entrant nested loads of `id` always fail before
recording it. -/
theorem loadTagRecursive_error_not_recorded
    {load : Id → Except DataPackError TagFile} {registry : TagMap} :
    ∀ fuel id cl pending p' e,
      loadTagRecursive load registry fuel id cl pending = some (p', .error e) →
      mapGet pending id = none →
      mapGet p' id = none := by
  intro fuel id cl pending p' e h hpt
  match fuel with
  | 0 => cases h
  | fuel + 1 =>
    match hl : load id with
    | .error e' =>
      simp only [loadTagRecursive, hl] at h
      cases h
      exact hpt
    | .ok file =>
      simp only [loadTagRecursive, hl] at h
      match hpe : processEntries registry (loadTagRecursive load registry fuel)
          file.values cl pending ([], []) with
      | none =>
        simp only [hpe] at h
        exact Option.noConfusion h
      | some (pending', .error e'') =>
        simp only [hpe] at h
        cases h
        exact processEntries_top_no_insert hl fuel _ _ _ _ _ hpe (fun _ he => he) hpt
      | some (pending', .ok values) =>
        simp only [hpe] at h
        cases h

/-- A call on `id` that returns `Ok(values)` has recorded exactly that
member list for `id` in `tags_to_add` before returning (the final
`tags_to_add.insert(id.to_owned(), values.clone())`). -/
theorem loadTagRecursive_ok_records
    {load : Id → Except DataPackError TagFile} {registry : TagMap}
    {fuel : Nat} {id : Id} {cl : List Id} {pending p' : TagMap} {vs : List Id}
    (h : loadTagRecursive load registry fuel id cl pending = some (p', .ok vs)) :
    mapGet p' id = some vs := by
  match fuel with
  | 0 => cases h
  | fuel + 1 =>
    match hl : load id with
    | .error e =>
      simp only [loadTagRecursive, hl] at h
      cases h
    | .ok file =>
      simp only [loadTagRecursive, hl] at h
      match hpe : processEntries registry (loadTagRecursive load registry fuel)
          file.values cl pending ([], []) with
      | none =>
        simp only [hpe] at h
        exact Option.noConfusion h
      | some (pending'', .error e) =>
        simp only [hpe] at h
        cases h
      | some (pending'', .ok values) =>
        simp only [hpe] at h
        cases h
        exact mapGet_mapInsert_self _ _ _

/-! ## New accumulator keys always miss the persistent cache

Every recursion is guarded by a registry-miss check (and the top-level call
comes from `resolve_tag`'s own miss), so keys already present in the
persistent cache never enter `tags_to_add`. -/

theorem processEntries_regmiss_preserved {registry : TagMap}
    {recur : Id → List Id → TagMap → Option (TagMap × Except DataPackError (List Id))}
    {k : Id}
    (hrec : ∀ w cl' p r', recur w cl' p = some r' → mapGet registry w = none →
      mapGet p k = none → mapGet r'.1 k = none) :
    ∀ entries cl pending acc r,
      processEntries registry recur entries cl pending acc = some r →
      mapGet pending k = none → mapGet r.1 k = none := by
  intro entries
  induction entries with
  | nil =>
    intro cl pending acc r hpe hpk
    simp only [processEntries] at hpe
    cases hpe
    exact hpk
  | cons entry rest ih =>
    intro cl pending acc r hpe hpk
    match hentry : entry.value with
    | .id v =>
      simp only [processEntries, hentry] at hpe
      exact ih _ _ _ _ hpe hpk
    | .tag tg =>
      simp only [processEntries, hentry] at hpe
      match hr : mapGet registry tg with
      | some loaded =>
        simp only [hr] at hpe
        exact ih _ _ _ _ hpe hpk
      | none =>
        simp only [hr] at hpe
        match hp : mapGet pending tg with
        | some loaded =>
          simp only [hp] at hpe
          exact ih _ _ _ _ hpe hpk
        | none =>
          simp only [hp] at hpe
          by_cases hin : cl.contains tg
          · rw [if_pos hin] at hpe
            cases hpe
            exact hpk
          · rw [if_neg hin] at hpe
            match hc : recur tg (tg :: cl) pending with
            | none =>
              simp only [hc] at hpe
              exact Option.noConfusion hpe
            | some (pending', .error err) =>
              simp only [hc] at hpe
              have hpk' : mapGet pending' k = none := hrec tg _ _ _ hc hr hpk
              by_cases hreq : (entry.required || !err.is_not_found) = true
              · rw [if_pos hreq] at hpe
                cases hpe
                exact hpk'
              · rw [if_neg hreq] at hpe
                exact ih _ _ _ _ hpe hpk'
            | some (pending', .ok loaded) =>
              simp only [hc] at hpe
              have hpk' : mapGet pending' k = none := hrec tg _ _ _ hc hr hpk
              exact ih _ _ _ _ hpe hpk'

theorem loadTagRecursive_regmiss_preserved
    {load : Id → Except DataPackError TagFile} {registry : TagMap} {k : Id}
    (hk : mapGet registry k ≠ none) :
    ∀ fuel s cl pending r,
      loadTagRecursive load registry fuel s cl pending = some r →
      mapGet registry s = none →
      mapGet pending k = none → mapGet r.1 k = none := by
  intro fuel
  induction fuel with
  | zero => intro s cl pending r h; cases h
  | succ fuel ih =>
    intro s cl pending r h hs hpk
    match hl : load s with
    | .error e =>
      simp only [loadTagRecursive, hl] at h
      cases h
      exact hpk
    | .ok file =>
      simp only [loadTagRecursive, hl] at h
      have hrec : ∀ w cl' p r', loadTagRecursive load registry fuel w cl' p = some r' →
          mapGet registry w = none → mapGet p k = none → mapGet r'.1 k = none :=
        fun w cl' p r' h' hw hp => ih w cl' p r' h' hw hp
      match hpe : processEntries registry (loadTagRecursive load registry fuel)
          file.values cl pending ([], []) with
      | none =>
        simp only [hpe] at h
        exact Option.noConfusion h
      | some (pending', .error e) =>
        simp only [hpe] at h
        cases h
        exact processEntries_regmiss_preserved hrec _ _ _ _ _ hpe hpk
      | some (pending', .ok values) =>
        simp only [hpe] at h
        cases h
        have hpk' : mapGet pending' k = none :=
          processEntries_regmiss_preserved hrec _ _ _ _ _ hpe hpk
        have hsk : k ≠ s := by
          intro hceq
          subst hceq
          exact hk hs
        rw [mapGet_mapInsert_ne _ _ _ _ hsk]
        exact hpk'

/-! ## Invariant preservation for the concurrent resolve model -/

theorem resolveInv_step {V : Type} (v : V) (st : ResolveState V) (i : Nat)
    (h : ResolveInv v st) : ResolveInv v (schedStep v st i) := by
  unfold schedStep
  match hget : st.threads[i]? with
  | none => exact h
  | some pc =>
    have hmem : pc ∈ st.threads := List.getElem?_mem hget
    rcases h with ⟨hslot, hloads, hpcs⟩ | ⟨hslot, hloads, hpcs⟩
    · rcases hpcs pc hmem with rfl | rfl
      · -- fast-path get on an empty slot: miss
        left
        refine ⟨by simp [stepThread, hslot], by simp [stepThread, hslot, hloads], ?_⟩
        intro pc' hpc'
        rcases List.mem_or_eq_of_mem_set (by simpa [stepThread, hslot] using hpc') with hin | rfl
        · exact hpcs pc' hin
        · exact Or.inr rfl
      · -- get_or_try_insert on a vacant entry: the one load runs
        right
        refine ⟨by simp [stepThread, hslot], by simp [stepThread, hslot, hloads], ?_⟩
        intro pc' hpc'
        rcases List.mem_or_eq_of_mem_set (by simpa [stepThread, hslot] using hpc') with hin | rfl
        · rcases hpcs pc' hin with rfl | rfl
          · exact Or.inl rfl
          · exact Or.inr (Or.inl rfl)
        · exact Or.inr (Or.inr rfl)
    · rcases hpcs pc hmem with rfl | rfl | rfl
      · -- fast-path get hits the installed value
        right
        refine ⟨by simp [stepThread, hslot], by simp [stepThread, hslot, hloads], ?_⟩
        intro pc' hpc'
        rcases List.mem_or_eq_of_mem_set (by simpa [stepThread, hslot] using hpc') with hin | rfl
        · exact hpcs pc' hin
        · exact Or.inr (Or.inr rfl)
      · -- get_or_try_insert finds the entry occupied: no second load
        right
        refine ⟨by simp [stepThread, hslot], by simp [stepThread, hslot, hloads], ?_⟩
        intro pc' hpc'
        rcases List.mem_or_eq_of_mem_set (by simpa [stepThread, hslot] using hpc') with hin | rfl
        · exact hpcs pc' hin
        · exact Or.inr (Or.inr rfl)
      · -- a finished thread does nothing
        right
        refine ⟨by simp [stepThread, hslot], by simp [stepThread, hslot, hloads], ?_⟩
        intro pc' hpc'
        rcases List.mem_or_eq_of_mem_set (by simpa [stepThread, hslot] using hpc') with hin | rfl
        · exact hpcs pc' hin
        · exact Or.inr (Or.inr rfl)

theorem resolveInv_run {V : Type} (v : V) (st : ResolveState V) (sched : List Nat)
    (h : ResolveInv v st) : ResolveInv v (runSched v st sched) := by
  induction sched generalizing st with
  | nil => exact h
  | cons i rest ih => exact ih _ (resolveInv_step v st i h)

theorem runSched_length {V : Type} (v : V) (st : ResolveState V) (sched : List Nat) :
    (runSched v st sched).threads.length = st.threads.length := by
  induction sched generalizing st with
  | nil => rfl
  | cons i rest ih =>
    rw [runSched, List.foldl_cons, ← runSched, ih]
    unfold schedStep
    match hget : st.threads[i]? with
    | none => rfl
    | some pc => simp [stepThread, List.length_set]

/-! # Claim theorems -/

/-- C1: the claim — Identifier equality, ordering and hashing all agree with
comparison of the `"minecraft:"`-stripped rendered strings — is FALSE for
equality and ordering.  `PartialEq for Identifier` falls back to
`&self.value` for `other` (a slip), making `eq("stone", "dirt")` true even
though the stripped strings differ, and making equality asymmetric on the
two renderings of `stone`; `Ord` compares the literal `"minecraft:"` with
the unstripped other side, so `cmp("minecraft:stone", "stone")` is `Less`,
not `Equal`.  Only the hash really is the hash of the stripped string.
These three implementations are also mutually inconsistent, violating the
`PartialEq`/`Ord`/`Hash` trait contracts the code relies on. -/
theorem identifier_eq_ord_hash_bug :
    (eqId "stone" "dirt" = true ∧ stripMc "stone" ≠ stripMc "dirt")
    ∧ (eqId "minecraft:stone" "stone" = false
       ∧ eqId "stone" "minecraft:stone" = true
       ∧ stripMc "minecraft:stone" = stripMc "stone")
    ∧ (cmpId "minecraft:stone" "stone" = .lt
       ∧ strCmp (stripMc "minecraft:stone") (stripMc "stone") = .eq)
    ∧ hashId "minecraft:stone" = hashId "stone" :=
  ⟨⟨by decide, by decide⟩, ⟨by decide, by decide, by decide⟩,
    ⟨by decide, by decide⟩, by decide⟩

/-- C2: for any number of threads `n ≥ 2` concurrently resolving the same
`Holder::Reference(id)` (any interleaving `sched` of their atomic `DashMap`
steps), if every thread has completed then `T::load` ran exactly once and
every thread returned the single stored value `v`. -/
theorem holder_resolve_exactly_once {V : Type} (v : V) (n : Nat) (sched : List Nat)
    (hn : 2 ≤ n)
    (hdone : ∀ pc ∈ (runSched v (initResolveState V n) sched).threads,
      pc.isDone = true) :
    (runSched v (initResolveState V n) sched).loads = 1
    ∧ ∀ pc ∈ (runSched v (initResolveState V n) sched).threads, pc = .done v := by
  have hinit : ResolveInv v (initResolveState V n) := by
    left
    refine ⟨rfl, rfl, ?_⟩
    intro pc hpc
    rw [List.eq_of_mem_replicate hpc]
    exact Or.inl rfl
  have hinv := resolveInv_run v _ sched hinit
  have hlen : (runSched v (initResolveState V n) sched).threads.length = n := by
    rw [runSched_length]
    exact List.length_replicate n _
  rcases hinv with ⟨hslot, hloads, hpcs⟩ | ⟨hslot, hloads, hpcs⟩
  · exfalso
    have hne : (runSched v (initResolveState V n) sched).threads ≠ [] := by
      intro hc
      rw [hc] at hlen
      simp at hlen
      omega
    obtain ⟨pc, hpc⟩ := List.exists_mem_of_ne_nil _ hne
    have := hdone pc hpc
    rcases hpcs pc hpc with rfl | rfl <;> simp [ThreadPC.isDone] at this
  · refine ⟨hloads, ?_⟩
    intro pc hpc
    have hd := hdone pc hpc
    rcases hpcs pc hpc with rfl | rfl | rfl
    · simp [ThreadPC.isDone] at hd
    · simp [ThreadPC.isDone] at hd
    · rfl

/-- C2 witness: two threads, fully interleaved schedule. -/
theorem holder_resolve_exactly_once_witness :
    (runSched (7 : Nat) (initResolveState Nat 2) [0, 1, 0, 1]).loads = 1
    ∧ ∀ pc ∈ (runSched (7 : Nat) (initResolveState Nat 2) [0, 1, 0, 1]).threads,
        pc = .done 7 :=
  holder_resolve_exactly_once 7 2 [0, 1, 0, 1] (by decide) (by decide)

/-- C7: the insert-only primitives.  A present key returns the existing
value without invoking `compute` (the result is the same for every
`compute`); an absent key with a failing `compute` returns the error and
leaves the map unchanged (so a later call runs `compute` again); an absent
key with a successful `compute` installs the value and returns it.  Stated
for both the single-value (`AddOnlyMap` / `RegistryMap`) and multi-value
(`AddOnlyMultiMap`) variants. -/
theorem get_or_try_insert_spec {κ α ε : Type} [DecidableEq κ]
    (m : List (κ × α)) (mm : List (κ × List α)) (key : κ)
    (compute : Unit → Except ε α) (computeM : Unit → Except ε (List α)) :
    (∀ v, mapGet m key = some v →
      getOrTryInsertSingle m key compute = (m, .ok v))
    ∧ (∀ e, mapGet m key = none → compute () = .error e →
      getOrTryInsertSingle m key compute = (m, .error e))
    ∧ (∀ v, mapGet m key = none → compute () = .ok v →
      getOrTryInsertSingle m key compute = (m ++ [(key, v)], .ok v)
        ∧ mapGet (m ++ [(key, v)]) key = some v)
    ∧ (∀ vs, mapGet mm key = some vs →
      getOrTryInsertMulti mm key computeM = (mm, .ok vs))
    ∧ (∀ e, mapGet mm key = none → computeM () = .error e →
      getOrTryInsertMulti mm key computeM = (mm, .error e))
    ∧ (∀ vs, mapGet mm key = none → computeM () = .ok vs →
      getOrTryInsertMulti mm key computeM = (mm ++ [(key, vs)], .ok vs)
        ∧ mapGet (mm ++ [(key, vs)]) key = some vs) := by
  refine ⟨?_, ?_, ?_, ?_, ?_, ?_⟩
  · intro v hv
    simp [getOrTryInsertSingle, hv]
  · intro e hv he
    simp [getOrTryInsertSingle, hv, he]
  · intro v hv he
    refine ⟨by simp [getOrTryInsertSingle, hv, he], ?_⟩
    rw [mapGet_append_right _ hv]
    simp [mapGet]
  · intro vs hv
    simp [getOrTryInsertMulti, hv]
  · intro e hv he
    simp [getOrTryInsertMulti, hv, he]
  · intro vs hv he
    refine ⟨by simp [getOrTryInsertMulti, hv, he], ?_⟩
    rw [mapGet_append_right _ hv]
    simp [mapGet]

/-- C7 witness: concrete hit, failing miss, and installing miss. -/
theorem get_or_try_insert_spec_witness :
    getOrTryInsertSingle [("a", 1)] "a" (fun _ => (.ok 2 : Except Bool Nat))
      = ([("a", 1)], .ok 1)
    ∧ getOrTryInsertSingle ([] : List (String × Nat)) "a"
        (fun _ => (.error true : Except Bool Nat)) = ([], .error true)
    ∧ getOrTryInsertMulti ([] : List (String × List Nat)) "a"
        (fun _ => (.ok [5] : Except Bool (List Nat))) = ([("a", [5])], .ok [5]) :=
  ⟨(get_or_try_insert_spec [("a", 1)] [] "a" (fun _ => .ok 2) (fun _ => .ok [5])).1
      1 (by decide),
    (get_or_try_insert_spec [] [] "a" (fun _ => (.error true : Except Bool Nat))
        (fun _ => .ok [5])).2.1 true (by decide) rfl,
    ((get_or_try_insert_spec ([] : List (String × Nat)) [] "a" (fun _ => .ok 2)
        (fun _ => .ok [5])).2.2.2.2.2 [5] (by decide) rfl).1⟩

/-- C8: the claim that tag flattening deduplicates identifiers at their
first occurrence holds for the claimed example (`a = [id(b:x),
tagref(b:c)]`, `b:c = [id(b:y), id(b:x)]` flattens to exactly `[b:x, b:y]`,
both through `load_tag_recursive` and through `HolderSet::flatten`), but is
FALSE in general: the same identifier rendered once without and once with
the `"minecraft:"` prefix is emitted twice, because the `added_values` set
probes with the slipped `PartialEq for Identifier`
(`eqId "minecraft:stone" "stone" = false` although both render the one
identifier `stone`, `stripMc`-equal). -/
theorem tag_dedup_bug :
    loadTagRecursive loadDedup [] 10 "a" [] []
      = some ([("b:c", ["b:y", "b:x"]), ("a", ["b:x", "b:y"])], .ok ["b:x", "b:y"])
    ∧ flattenValues loadDedup 10 [.id "b:x", .tag "b:c"] [] ([], [])
      = some ([("b:c", ["b:y", "b:x"])], .ok ["b:x", "b:y"])
    ∧ loadTagRecursive loadMixed [] 10 "a" [] []
      = some ([("a", ["stone", "minecraft:stone"])], .ok ["stone", "minecraft:stone"])
    ∧ stripMc "stone" = stripMc "minecraft:stone"
    ∧ eqId "minecraft:stone" "stone" = false :=
  ⟨by decide, by decide, by decide, by decide, by decide⟩

/-- C9: the claim's object shape `{"id": <string>, "required": <bool>}` is
FALSE on the code — the serde surrogate's field is named `value`, so
`{"id": "#missing", "required": false}` is rejected (the untagged string
variant fails on an object, and the object variant misses its `value`
field) while `{"value": "#missing", "required": false}` is accepted as an
optional tag reference.  The rest of the claim holds: a bare string
deserializes with `required = true`, a leading `'#'` denotes a tag
reference, any other string a literal identifier, and `required` defaults
to `true` when omitted from the object form. -/
theorem tag_entry_deser_bug :
    deserTagEntry (.obj [("id", .str "#missing"), ("required", .bool false)]) = none
    ∧ deserTagEntry (.obj [("value", .str "#missing"), ("required", .bool false)])
        = some ⟨.tag "missing", false⟩
    ∧ deserTagEntry (.str "#missing") = some ⟨.tag "missing", true⟩
    ∧ deserTagEntry (.str "stone") = some ⟨.id "stone", true⟩
    ∧ deserTagEntry (.obj [("value", .str "x")]) = some ⟨.id "x", true⟩
    ∧ deserTagEntry (.str "bad format!") = none :=
  ⟨by decide, by decide, by decide, by decide, by decide, by decide⟩

/-- C5: a failed recursive load of a nested tag entry is swallowed — the
entry contributes nothing (`acc` unchanged) and the walk continues with the
later entries — exactly when the entry's `required` flag is false AND the
error is classified not-found; any other failure is returned immediately,
aborting the walk.  `is_not_found` is true exactly for `Io(NotFound)` and
`Zip(FileNotFound)`, and in particular false for `RecursiveTag`, which is
therefore propagated even from an optional entry. -/
theorem tag_error_swallow_iff {registry : TagMap}
    {recur : Id → List Id → TagMap → Option (TagMap × Except DataPackError (List Id))} :
    (∀ entry rest cl pending acc t pending' err,
      entry.value = .tag t →
      mapGet registry t = none → mapGet pending t = none → t ∉ cl →
      recur t (t :: cl) pending = some (pending', .error err) →
      ((entry.required = false ∧ err.is_not_found = true) →
        processEntries registry recur (entry :: rest) cl pending acc
          = processEntries registry recur rest cl pending' acc)
      ∧ ((entry.required = true ∨ err.is_not_found = false) →
        processEntries registry recur (entry :: rest) cl pending acc
          = some (pending', .error err)))
    ∧ (∀ e : DataPackError,
        e.is_not_found = true ↔ e = .ioError true ∨ e = .zipError true)
    ∧ DataPackError.recursiveTag.is_not_found = false := by
  refine ⟨?_, ?_, rfl⟩
  · intro entry rest cl pending acc t pending' err hentry hreg hpend hmem hc
    have hin : cl.contains t = false := by
      rcases hcontains : cl.contains t with _ | _
      · rfl
      · exact absurd (List.mem_of_elem_eq_true hcontains) hmem
    constructor
    · rintro ⟨hr, hnf⟩
      simp only [processEntries, hentry, hreg, hpend, hin, Bool.false_eq_true,
        if_false, hc, hr, hnf, Bool.not_true, Bool.or_self]
    · intro hor
      have hcond : (entry.required || !err.is_not_found) = true := by
        rcases hor with hr | hnf
        · simp [hr]
        · simp [hnf]
      simp only [processEntries, hentry, hreg, hpend, hin, Bool.false_eq_true,
        if_false, hc, hcond, if_true]
  · intro e
    cases e <;> simp [DataPackError.is_not_found]

/-- C5 witness: the optional missing child is swallowed and the walk
continues; the required missing child aborts with the original error. -/
theorem tag_error_swallow_iff_witness :
    processEntries [] (loadTagRecursive loadParent [] 5)
        [⟨.tag "bad_child", false⟩] [] [] ([], [])
      = processEntries [] (loadTagRecursive loadParent [] 5) [] [] [] ([], [])
    ∧ processEntries [] (loadTagRecursive loadParent [] 5)
        [⟨.tag "bad_child", true⟩] [] [] ([], [])
      = some ([], .error (.ioError true)) :=
  ⟨(tag_error_swallow_iff.1 ⟨.tag "bad_child", false⟩ [] [] [] ([], [])
      "bad_child" [] (.ioError true) rfl (by decide) (by decide) (by decide)
      (by decide)).1 ⟨rfl, rfl⟩,
    (tag_error_swallow_iff.1 ⟨.tag "bad_child", true⟩ [] [] [] ([], [])
      "bad_child" [] (.ioError true) rfl (by decide) (by decide) (by decide)
      (by decide)).2 (Or.inl rfl)⟩

/-- C6: cycle detection.  A tag-reference entry whose tag is already in
`currently_loading_tags` (and in neither cache) fails immediately with
`RecursiveTag`; otherwise the tag is added to `currently_loading_tags` for
the recursive call only (the walk of the remaining entries continues with
the caller's unchanged set, modelling insert-before/remove-after).
Concretely, resolving the self-referential tag `loop = [tagref("loop")]`
returns the `RecursiveTag` error. -/
theorem recursive_tag_cycle_detection {registry : TagMap}
    {recur : Id → List Id → TagMap → Option (TagMap × Except DataPackError (List Id))} :
    (∀ entry rest cl pending acc t, entry.value = .tag t →
      mapGet registry t = none → mapGet pending t = none → t ∈ cl →
      processEntries registry recur (entry :: rest) cl pending acc
        = some (pending, .error .recursiveTag))
    ∧ (∀ entry rest cl pending acc t, entry.value = .tag t →
      mapGet registry t = none → mapGet pending t = none → t ∉ cl →
      processEntries registry recur (entry :: rest) cl pending acc
        = match recur t (t :: cl) pending with
          | none => none
          | some (pending', .error err) =>
            if entry.required || !err.is_not_found then some (pending', .error err)
            else processEntries registry recur rest cl pending' acc
          | some (pending', .ok loaded) =>
            processEntries registry recur rest cl pending' (addValues acc loaded))
    ∧ resolveTag loadLoop [] 10 "loop" = some ([], .error .recursiveTag) := by
  refine ⟨?_, ?_, by decide⟩
  · intro entry rest cl pending acc t hentry hreg hpend hmem
    simp only [processEntries, hentry, hreg, hpend,
      List.elem_eq_true_of_mem hmem, if_true]
  · intro entry rest cl pending acc t hentry hreg hpend hmem
    have hin : cl.contains t = false := by
      rcases hcontains : cl.contains t with _ | _
      · rfl
      · exact absurd (List.mem_of_elem_eq_true hcontains) hmem
    simp only [processEntries, hentry, hreg, hpend, hin, Bool.false_eq_true, if_false]

/-- C6 witness: an entry referencing an in-flight tag fails with
`RecursiveTag` without consulting the recursion. -/
theorem recursive_tag_cycle_detection_witness :
    processEntries [] (fun _ _ _ => none) [⟨.tag "x", true⟩] ["x"] [] ([], [])
      = some ([], .error .recursiveTag) :=
  (@recursive_tag_cycle_detection [] (fun _ _ _ => none)).1
    ⟨.tag "x", true⟩ [] ["x"] [] ([], []) "x" rfl (by decide) (by decide)
    (by decide)

/-- C4 counterexample: the claim says every invocation of
`load_tag_recursive` records `id`'s own flattened member list into the
pending accumulator *both* on success and on error — but the recursive load
of `parent` (whose required child `bad_child` is missing) returns an error
with the pending accumulator holding only `ok_child`, and no entry at all
for `parent`: the `tags_to_add.insert(id, ..)` line runs only on the
success path. -/
theorem load_tag_recursive_error_records_nothing_cex :
    loadTagRecursive loadParent [] 10 "parent" [] []
      = some ([("ok_child", ["a:x"])], .error (.ioError true))
    ∧ mapGet [("ok_child", ["a:x"])] "parent" = none :=
  ⟨by decide, by decide⟩

/-- C4 (amended): an invocation of `load_tag_recursive` that returns
successfully records `id`'s own flattened member list — the very list it
returns — into the pending accumulator before returning; an invocation that
returns an error records nothing for `id` (an absent pending entry for `id`
stays absent). -/
theorem load_tag_recursive_records_on_return
    {load : Id → Except DataPackError TagFile} {registry : TagMap} :
    (∀ fuel id cl pending p' vs,
      loadTagRecursive load registry fuel id cl pending = some (p', .ok vs) →
      mapGet p' id = some vs)
    ∧ (∀ fuel id cl pending p' e,
      loadTagRecursive load registry fuel id cl pending = some (p', .error e) →
      mapGet pending id = none → mapGet p' id = none) :=
  ⟨fun _ _ _ _ _ _ h => loadTagRecursive_ok_records h,
    fun fuel id cl pending p' e h hp =>
      loadTagRecursive_error_not_recorded fuel id cl pending p' e h hp⟩

/-- C4 witness: the successful load of `ok_child` records its list; the
failed load of `parent` records nothing for `parent`. -/
theorem load_tag_recursive_records_on_return_witness :
    mapGet [("ok_child", ["a:x"])] "ok_child" = some ["a:x"]
    ∧ mapGet [("ok_child", ["a:x"])] "parent" = none :=
  ⟨(@load_tag_recursive_records_on_return loadParent []).1
      10 "ok_child" [] [] [("ok_child", ["a:x"])] ["a:x"] (by decide),
    (@load_tag_recursive_records_on_return loadParent []).2
      10 "parent" [] [] [("ok_child", ["a:x"])] (.ioError true) (by decide)
      (by decide)⟩

/-- C3: when `resolve_tag` misses the fast path, after the top-level
recursive load returns — successfully or not — every entry accumulated in
the pending map is committed into the persistent tag cache; on failure the
original error is then propagated, on success the now-cached member list
for `id` is returned; and a tag already cached is returned directly from
the cache with no load at all.  Concretely, `resolve_tag("parent")` (with
required `bad_child` missing) fails with the original NotFound error but
commits `ok_child`'s already-computed list, and the follow-up
`resolve_tag("ok_child")` is served entirely from the cache. -/
theorem resolve_tag_commits_pending
    {load : Id → Except DataPackError TagFile} {registry : TagMap} :
    (∀ fuel id pending res,
      mapGet registry id = none →
      loadTagRecursive load registry fuel id [] [] = some (pending, res) →
      (∀ k v, mapGet pending k = some v →
        mapGet (commitPending registry pending) k = some v)
      ∧ (∀ e, res = .error e →
        resolveTag load registry fuel id
          = some (commitPending registry pending, .error e))
      ∧ (∀ vs, res = .ok vs →
        resolveTag load registry fuel id
          = some (commitPending registry pending, .ok vs)
        ∧ mapGet (commitPending registry pending) id = some vs))
    ∧ (∀ fuel id vs, mapGet registry id = some vs →
      resolveTag load registry fuel id = some (registry, .ok vs))
    ∧ resolveTag loadParent [] 10 "parent"
        = some ([("ok_child", ["a:x"])], .error (.ioError true))
    ∧ resolveTag loadParent [("ok_child", ["a:x"])] 10 "ok_child"
        = some ([("ok_child", ["a:x"])], .ok ["a:x"]) := by
  refine ⟨?_, ?_, by decide, by decide⟩
  · intro fuel id pending res hmiss h
    have hcommit : ∀ k v, mapGet pending k = some v →
        mapGet (commitPending registry pending) k = some v := by
      intro k v hk
      have hregk : mapGet registry k = none := by
        match hreg : mapGet registry k with
        | none => rfl
        | some w =>
          have : mapGet pending k = none :=
            loadTagRecursive_regmiss_preserved (by simp [hreg]) fuel id [] []
              (pending, res) h hmiss rfl
          rw [this] at hk
          exact Option.noConfusion hk
      exact commitPending_pending hregk hk
    refine ⟨hcommit, ?_, ?_⟩
    · intro e hres
      subst hres
      simp only [resolveTag, hmiss, h]
    · intro vs hres
      subst hres
      have hid : mapGet (commitPending registry pending) id = some vs :=
        hcommit id vs (loadTagRecursive_ok_records h)
      constructor
      · simp only [resolveTag, hmiss, h, hid, Option.getD_some]
      · exact hid
  · intro fuel id vs hv
    simp only [resolveTag, hv]

/-- C3 witness: the committed cache after the failed `parent` resolution
serves `ok_child` from cache. -/
theorem resolve_tag_commits_pending_witness :
    mapGet (commitPending [] [("ok_child", ["a:x"])]) "ok_child" = some ["a:x"] :=
  ((@resolve_tag_commits_pending loadParent []).1
    10 "parent" [("ok_child", ["a:x"])] (.error (.ioError true)) (by decide)
    (by decide)).1 "ok_child" ["a:x"] (by decide)

/-- C10: if the top-level `resolve_tag` misses the fast path and the
recursive load fails, then `id` itself is never among the committed
entries — only the strictly nested tags recorded in the pending accumulator
are (keys absent from pending leave the cache unchanged) — so the persistent
cache still has no entry for `id` and a subsequent `resolve_tag(id)` misses
the fast path again and re-attempts the load. -/
theorem failed_resolve_commits_only_nested
    {load : Id → Except DataPackError TagFile} {registry : TagMap} :
    ∀ fuel id pending e,
      mapGet registry id = none →
      loadTagRecursive load registry fuel id [] [] = some (pending, .error e) →
      resolveTag load registry fuel id
        = some (commitPending registry pending, .error e)
      ∧ mapGet pending id = none
      ∧ mapGet (commitPending registry pending) id = none
      ∧ (∀ k, mapGet pending k = none →
        mapGet (commitPending registry pending) k = mapGet registry k) := by
  intro fuel id pending e hmiss h
  have hpend : mapGet pending id = none :=
    loadTagRecursive_error_not_recorded fuel id [] [] pending e h rfl
  refine ⟨?_, hpend, ?_, ?_⟩
  · simp only [resolveTag, hmiss, h]
  · rw [commitPending_absent registry hpend]
    exact hmiss
  · intro k hk
    exact commitPending_absent registry hk

/-- C10 witness: after the failed `parent` resolution, the cache has no
entry for `parent` (the retry misses the fast path). -/
theorem failed_resolve_commits_only_nested_witness :
    mapGet (commitPending [] [("ok_child", ["a:x"])]) "parent" = none :=
  (@failed_resolve_commits_only_nested loadParent [] 10 "parent"
    [("ok_child", ["a:x"])] (.ioError true) (by decide) (by decide)).2.2.1
